import Mathlib

/-!
Formal model of the core of the web-accessibility-auditor (src/main.py):

* the sitemap resolver `extract_urls_from_sitemap` with its recursive
  `_walk` traversal (modelled by the mutual functions `sitemapWalk`,
  `walkKids`, `walkRows` below, one per loop of the source),
* the violation aggregator `build_aggregated_results`,
* the scan loop `run_scan_thread` with its cooperative-cancellation flag
  and the per-URL scanner wrapper `run_axe_scan`.

Python strings are modelled as Lean `String`, with the Python string
operations used by the source (`strip`, `endswith`, slicing, `<`)
re-implemented over the underlying character lists so that every
definition evaluates inside the kernel.  Fetching and parsing are
abstracted: a fetched-and-parsed sitemap document is a `SitemapDoc`
recording what each of the source's probes (HTML table rows, the two
pandas extractions, the two BeautifulSoup fallbacks) would return, and a
sitemap graph is an association list from URL to document; a URL absent
from the list is a fetch failure.  The external axe scanner is an opaque
`String → Except String (List RawViolation)` collaborator.
-/

/-- Python `str.strip()`: drop whitespace from both ends. -/
def strTrim (s : String) : String :=
  ⟨((s.data.dropWhile Char.isWhitespace).reverse.dropWhile Char.isWhitespace).reverse⟩

/-- Python `str.endswith(t)`: suffix test on the character list. -/
def strEndsWith (s t : String) : Bool := t.data.isSuffixOf s.data

/-- Python slicing `s[:n]`: the first `n` characters. -/
def strTake (s : String) (n : Nat) : String := ⟨s.data.take n⟩

/-- Python `<` on strings: lexicographic comparison of code points. -/
def strListLt : List Char → List Char → Bool
  | _, [] => false
  | [], _ :: _ => true
  | a :: as, b :: bs => decide (a < b) || (a == b && strListLt as bs)

def strLt (a b : String) : Bool := strListLt a.data b.data

def strLe (a b : String) : Bool := strLt a b || a == b

/-- The outcome of fetching and parsing one sitemap URL, as the source's
successive probes see it: the HTML-table path (`htmlRows` is the first
anchor of each table row, `none` when no table is found), the two
`pandas.read_xml` extractions (`sitemapLocs` for `//sitemap`, `urlLocs`
for `//url`, each `none` when the extraction fails, is empty, or has no
`loc` column), and the two BeautifulSoup fallbacks (`indexLocs` for a
`sitemapindex` root, `urlsetLocs` for a `urlset` root, the `loc` texts of
their entries). -/
structure SitemapDoc where
  isHtml : Bool
  htmlRows : Option (List String)
  sitemapLocs : Option (List String)
  urlLocs : Option (List String)
  indexLocs : Option (List String)
  urlsetLocs : Option (List String)
deriving DecidableEq

/-- The closure state of `extract_urls_from_sitemap`: the `visited` set,
the collected `page_urls` (in insertion order), and the trace of URLs for
which `fetch_sitemap_xml` was called, in call order. -/
structure WalkState where
  visited : Finset String
  pages : List String
  fetched : List String
deriving DecidableEq

/-- `add_page_url`: append a page URL unless it is empty or already collected. -/
def addPageUrl (pages : List String) (u : String) : List String :=
  if u ≠ "" ∧ u ∉ pages then pages ++ [u] else pages

def addPages (pages : List String) (locs : List String) : List String :=
  locs.foldl addPageUrl pages

/-- Every (trimmed) location string a document can mention, over all its probes. -/
def docLocs (d : SitemapDoc) : List String :=
  ((d.htmlRows.getD []) ++ (d.sitemapLocs.getD []) ++ (d.urlLocs.getD []) ++
    (d.indexLocs.getD []) ++ (d.urlsetLocs.getD [])).map strTrim

/-- The finite universe of locations a sitemap graph can mention; the
termination measure of the traversal counts its not-yet-visited part. -/
def allLocs (g : List (String × SitemapDoc)) : Finset String :=
  g.foldr (fun p acc => (docLocs p.2).toFinset ∪ acc) ∅

lemma docLocs_sub_allLocs {g : List (String × SitemapDoc)} {u : String} {d : SitemapDoc}
    (hd : List.lookup u g = some d) : (docLocs d).toFinset ⊆ allLocs g := by
  induction g with
  | nil => simp [List.lookup] at hd
  | cons p rest ih =>
    simp only [List.lookup] at hd
    by_cases h : u == p.1
    · simp [h] at hd
      subst hd
      intro x hx
      simp [allLocs]
      exact Or.inl (by simpa using hx)
    · simp [h] at hd
      intro x hx
      simp [allLocs]
      exact Or.inr (ih hd hx)

lemma card_sdiff_insert_lt (U vis : Finset String) (u : String) (hu : u ∉ vis)
    (B : Finset String) (hB : B ⊆ U) :
    ((U ∪ B) \ (insert u vis)).card < ((insert u U) \ vis).card := by
  have h1 : U ∪ B = U := Finset.union_eq_left.mpr hB
  rw [h1]
  apply Finset.card_lt_card
  constructor
  · intro x hx
    simp only [Finset.mem_sdiff, Finset.mem_insert] at hx ⊢
    exact ⟨Or.inr hx.1, fun h => hx.2 (Or.inr h)⟩
  · intro hsub
    have : u ∈ U \ insert u vis := hsub (by simp [hu])
    simp at this

lemma sdiff_card_mono {A B : Finset String} {v w : Finset String}
    (hAB : A ⊆ B) (hvw : v ⊆ w) : (A \ w).card ≤ (B \ v).card :=
  Finset.card_le_card (Finset.sdiff_subset_sdiff hAB hvw)

/-- One of the five probe lists of a document. -/
def IsDocField (d : SitemapDoc) (locs : List String) : Prop :=
  d.htmlRows = some locs ∨ d.sitemapLocs = some locs ∨ d.urlLocs = some locs ∨
    d.indexLocs = some locs ∨ d.urlsetLocs = some locs

lemma trim_mem_docLocs {d : SitemapDoc} {locs : List String} {r : String}
    (hl : IsDocField d locs) (hr : r ∈ locs) : strTrim r ∈ docLocs d := by
  simp only [docLocs, List.mem_map, List.mem_append]
  refine ⟨r, ?_, rfl⟩
  rcases hl with h | h | h | h | h <;> simp only [h, Option.getD_some] <;> tauto

lemma trims_sub_allLocs {g : List (String × SitemapDoc)} {u : String} {d : SitemapDoc}
    {locs : List String} (hd : List.lookup u g = some d) (hl : IsDocField d locs) :
    (locs.map strTrim).toFinset ⊆ allLocs g := by
  intro x hx
  simp only [List.mem_toFinset, List.mem_map] at hx
  obtain ⟨r, hr, rfl⟩ := hx
  exact docLocs_sub_allLocs hd (by
    simp only [List.mem_toFinset]
    exact trim_mem_docLocs hl hr)

lemma filter_trims_sub_allLocs {g : List (String × SitemapDoc)} {u : String} {d : SitemapDoc}
    {locs : List String} (hd : List.lookup u g = some d) (hl : IsDocField d locs)
    (p : String → Bool) :
    ((locs.map strTrim).filter p).toFinset ⊆ allLocs g := by
  intro x hx
  simp only [List.mem_toFinset, List.mem_filter] at hx
  exact trims_sub_allLocs hd hl (by simpa [List.mem_toFinset] using hx.1)

lemma lex_of_le_of_lt {a b : Nat} {c d : Nat} (h1 : a ≤ b) (h2 : c < d) :
    Prod.Lex (· < ·) (· < ·) (a, c) (b, d) := by
  rcases Nat.lt_or_eq_of_le h1 with h | h
  · exact Prod.Lex.left _ _ h
  · subst h; exact Prod.Lex.right _ h2

mutual

/-- The source's `_walk(url)`.  Skip a visited URL; otherwise mark it
visited, fetch it (recording the fetch in the trace; a lookup miss is a
fetch failure), and dispatch exactly as the source does: the HTML-table
path (rows processed in order, `.xml` anchors recursed into, others
collected as pages), the pandas sitemap-index path (recurse into every
nonempty trimmed child), the pandas urlset path (collect every trimmed
location), the BeautifulSoup `sitemapindex` fallback (recurse only into
children whose trimmed text ends in `.xml`), the BeautifulSoup `urlset`
fallback (collect every trimmed location), else nothing.  The returned
subtype records that the visited set only grows, which drives the
termination measure. -/
def sitemapWalk (g : List (String × SitemapDoc)) (u : String) (s : WalkState) :
    {t : WalkState // s.visited ⊆ t.visited} :=
  if hv : u ∈ s.visited then ⟨s, Finset.Subset.refl _⟩
  else
    let s1 : WalkState := ⟨insert u s.visited, s.pages, s.fetched ++ [u]⟩
    have hs1 : s.visited ⊆ s1.visited := Finset.subset_insert _ _
    match hd : List.lookup u g with
    | none => ⟨s1, hs1⟩
    | some d =>
      if d.isHtml then
        match hr : d.htmlRows with
        | none => ⟨s1, hs1⟩
        | some rows =>
          let t := walkRows g rows s1
          ⟨t.val, hs1.trans t.property⟩
      else
        match hsl : d.sitemapLocs with
        | some locs =>
          let t := walkKids g ((locs.map strTrim).filter (fun c => c ≠ "")) s1
          ⟨t.val, hs1.trans t.property⟩
        | none =>
          match hul : d.urlLocs with
          | some locs => ⟨⟨s1.visited, addPages s1.pages (locs.map strTrim), s1.fetched⟩, hs1⟩
          | none =>
            match hil : d.indexLocs with
            | some locs =>
              let t := walkKids g ((locs.map strTrim).filter (fun c => strEndsWith c ".xml")) s1
              ⟨t.val, hs1.trans t.property⟩
            | none =>
              match hus : d.urlsetLocs with
              | some locs =>
                ⟨⟨s1.visited, addPages s1.pages (locs.map strTrim), s1.fetched⟩, hs1⟩
              | none => ⟨s1, hs1⟩
termination_by (((insert u (allLocs g)) \ s.visited).card, 0)
decreasing_by
· exact Prod.Lex.left _ _
    (card_sdiff_insert_lt _ _ _ hv _ (trims_sub_allLocs hd (Or.inl hr)))
· exact Prod.Lex.left _ _
    (card_sdiff_insert_lt _ _ _ hv _ (filter_trims_sub_allLocs hd (Or.inr (Or.inl hsl)) _))
· exact Prod.Lex.left _ _
    (card_sdiff_insert_lt _ _ _ hv _
      (filter_trims_sub_allLocs hd (Or.inr (Or.inr (Or.inr (Or.inl hil)))) _))

/-- The child-sitemap loops of `_walk`: recurse into each child in order,
threading the state. -/
def walkKids (g : List (String × SitemapDoc)) (locs : List String) (s : WalkState) :
    {t : WalkState // s.visited ⊆ t.visited} :=
  match locs with
  | [] => ⟨s, Finset.Subset.refl _⟩
  | c :: rest =>
    let t := sitemapWalk g c s
    let t2 := walkKids g rest t.val
    ⟨t2.val, t.property.trans t2.property⟩
termination_by (((allLocs g ∪ locs.toFinset) \ s.visited).card, locs.length + 1)
decreasing_by
· refine lex_of_le_of_lt ?_ (by simp only [List.length_cons]; omega)
  refine sdiff_card_mono ?_ (Finset.Subset.refl _)
  intro x hx
  rcases Finset.mem_insert.mp hx with h | h
  · subst h
    refine Finset.mem_union_right _ ?_
    simp only [List.toFinset_cons]
    exact Finset.mem_insert_self _ _
  · exact Finset.mem_union_left _ h
· refine lex_of_le_of_lt ?_ (by simp only [List.length_cons]; omega)
  refine sdiff_card_mono ?_ t.property
  refine Finset.union_subset_union (Finset.Subset.refl _) ?_
  simp only [List.toFinset_cons]
  exact Finset.subset_insert _ _

/-- The HTML-table row loop of `_walk`: per row, take the anchor text,
strip it, skip it when empty, recurse when it ends in `.xml`, otherwise
collect it as a page URL. -/
def walkRows (g : List (String × SitemapDoc)) (rows : List String) (s : WalkState) :
    {t : WalkState // s.visited ⊆ t.visited} :=
  match rows with
  | [] => ⟨s, Finset.Subset.refl _⟩
  | r :: rest =>
    let loc := strTrim r
    if loc = "" then walkRows g rest s
    else if strEndsWith loc ".xml" then
      let t := sitemapWalk g loc s
      let t2 := walkRows g rest t.val
      ⟨t2.val, t.property.trans t2.property⟩
    else
      walkRows g rest ⟨s.visited, addPageUrl s.pages loc, s.fetched⟩
termination_by (((allLocs g ∪ (rows.map strTrim).toFinset) \ s.visited).card, rows.length + 1)
decreasing_by
· refine lex_of_le_of_lt ?_ (by simp only [List.length_cons]; omega)
  refine sdiff_card_mono ?_ (Finset.Subset.refl _)
  refine Finset.union_subset_union (Finset.Subset.refl _) ?_
  simp only [List.map_cons, List.toFinset_cons]
  exact Finset.subset_insert _ _
· refine lex_of_le_of_lt ?_ (by simp only [List.length_cons]; omega)
  refine sdiff_card_mono ?_ (Finset.Subset.refl _)
  intro x hx
  rcases Finset.mem_insert.mp hx with h | h
  · subst h
    refine Finset.mem_union_right _ ?_
    simp only [List.map_cons, List.toFinset_cons]
    exact Finset.mem_insert_self _ _
  · exact Finset.mem_union_left _ h
· refine lex_of_le_of_lt ?_ (by simp only [List.length_cons]; omega)
  refine sdiff_card_mono ?_ t.property
  refine Finset.union_subset_union (Finset.Subset.refl _) ?_
  simp only [List.map_cons, List.toFinset_cons]
  exact Finset.subset_insert _ _
· refine lex_of_le_of_lt ?_ (by simp only [List.length_cons]; omega)
  refine sdiff_card_mono ?_ (Finset.Subset.refl _)
  refine Finset.union_subset_union (Finset.Subset.refl _) ?_
  simp only [List.map_cons, List.toFinset_cons]
  exact Finset.subset_insert _ _

end

def initWalkState : WalkState := ⟨∅, [], []⟩

/-- The full closure state after `extract_urls_from_sitemap(root_url, log)`
has run. -/
def resolveRun (g : List (String × SitemapDoc)) (root : String) : WalkState :=
  (sitemapWalk g root initWalkState).val

/-- The source's `extract_urls_from_sitemap`: the collected page URLs. -/
def extract_urls_from_sitemap (g : List (String × SitemapDoc)) (root : String) : List String :=
  (resolveRun g root).pages

/-- One raw violation record, as built by `run_axe_scan` (one per
offending element, rule and page). -/
structure RawViolation where
  url : String
  priority : String
  description : String
  element_html : String
  element_id : String
  element_classes : String
  rule_id : String
  tag : String
  inner_text : String
deriving DecidableEq

/-- The severity-rank table of `build_aggregated_results`:
critical=3, serious=2, moderate=1, minor=0, anything else (including the
empty string) -1. -/
def severity_rank (p : String) : Int :=
  if p = "critical" then 3
  else if p = "serious" then 2
  else if p = "moderate" then 1
  else if p = "minor" then 0
  else -1

/-- The aggregation key: `(rule_id, tag, element_id, element_classes,
inner_text[:120])`. -/
def keyOf (v : RawViolation) : String × String × String × String × String :=
  (v.rule_id, v.tag, v.element_id, v.element_classes, strTake v.inner_text 120)

/-- One in-progress aggregate entry of the `agg` mapping. -/
structure AggEntry where
  priority : String
  description : String
  element_id : String
  element_classes : String
  rule_id : String
  tag : String
  inner_text : String
  urls : List String
  element_html : String
deriving DecidableEq

/-- The entry seeded on the first occurrence of a key (its URL set starts
empty; the shared per-record update below then runs on it too, exactly as
in the source). -/
def seedEntry (v : RawViolation) : AggEntry :=
  ⟨v.priority, v.description, v.element_id, v.element_classes, v.rule_id, v.tag,
    v.inner_text, [], v.element_html⟩

/-- `entry["urls"].add(url)` on an insertion-ordered model of a set. -/
def addUrl (us : List String) (u : String) : List String :=
  if u ∈ us then us else us ++ [u]

/-- The per-record update of an entry: add the URL, and replace the
priority only when the new record's severity rank is strictly greater. -/
def mergeV (e : AggEntry) (v : RawViolation) : AggEntry :=
  { e with
    urls := addUrl e.urls v.url
    priority :=
      if severity_rank e.priority < severity_rank v.priority then v.priority else e.priority }

/-- Lookup in the insertion-ordered model of the Python dict `agg`. -/
def lookupA : List ((String × String × String × String × String) × AggEntry) →
    (String × String × String × String × String) → Option AggEntry
  | [], _ => none
  | (k', e) :: rest, k => if k' = k then some e else lookupA rest k

/-- In-place update of the entry stored under a key, preserving positions. -/
def updA : List ((String × String × String × String × String) × AggEntry) →
    (String × String × String × String × String) → (AggEntry → AggEntry) →
    List ((String × String × String × String × String) × AggEntry)
  | [], _, _ => []
  | (k', e) :: rest, k, f => if k' = k then (k', f e) :: rest else (k', e) :: updA rest k f

/-- Folding one raw violation into the `agg` dict: seed on a fresh key
(new keys go to the end, as in a Python dict), then apply the shared
per-record update. -/
def foldStep (m : List ((String × String × String × String × String) × AggEntry))
    (v : RawViolation) : List ((String × String × String × String × String) × AggEntry) :=
  match lookupA m (keyOf v) with
  | some _ => updA m (keyOf v) (fun e => mergeV e v)
  | none => m ++ [(keyOf v, mergeV (seedEntry v) v)]

/-- The fully folded `agg` dict over a raw-violation list. -/
def aggMap (raws : List RawViolation) :
    List ((String × String × String × String × String) × AggEntry) :=
  raws.foldl foldStep []

/-- Python `sorted` over an already-duplicate-free list of strings. -/
def sortStrings (us : List String) : List String :=
  List.insertionSort (fun a b => strLe a b = true) us

/-- One row of `self.results`, as assembled from an aggregate entry. -/
structure ResultRow where
  error_id : String
  priority : String
  description : String
  element_id : String
  element_classes : String
  tag : String
  inner_text : String
  urls : List String
  url_count : Nat
  element_html : String
deriving DecidableEq

def rowOf (e : AggEntry) : ResultRow :=
  ⟨e.rule_id, e.priority, e.description, e.element_id, e.element_classes, e.tag,
    e.inner_text, sortStrings e.urls, (sortStrings e.urls).length, e.element_html⟩

/-- The comparison the final `self.results.sort` realises: severity rank
descending, then `error_id` ascending (the source's key is
`(-rank, error_id)` sorted ascending by Python's stable sort). -/
def rowLe (r1 r2 : ResultRow) : Prop :=
  severity_rank r2.priority < severity_rank r1.priority ∨
    (severity_rank r1.priority = severity_rank r2.priority ∧ strLe r1.error_id r2.error_id = true)

instance : DecidableRel rowLe := fun r1 r2 => by unfold rowLe; infer_instance

/-- The source's `build_aggregated_results`: fold every raw violation into
the keyed mapping, turn each entry into a result row (URLs sorted, count
attached), and sort by severity rank descending then rule id ascending
with a stable sort. -/
def build_aggregated_results (raws : List RawViolation) : List ResultRow :=
  List.insertionSort rowLe ((aggMap raws).map (fun p => rowOf p.2))

/-- The raw violations of a list whose key is `k`. -/
def matchingOf (L : List RawViolation) (k : String × String × String × String × String) :
    List RawViolation :=
  L.filter (fun v => decide (keyOf v = k))

/-- The greatest severity rank over a list of raw violations (at least -1,
the rank of an unknown priority). -/
def maxRank (ms : List RawViolation) : Int :=
  ms.foldl (fun a v => max a (severity_rank v.priority)) (-1)

/-- The URL set (insertion-ordered, duplicate-free) accumulated over a
list of raw violations. -/
def urlFold (ms : List RawViolation) : List String :=
  ms.foldl (fun us v => addUrl us v.url) []

/-- Final state of a scan run. -/
inductive ScanState where
  | Completed
  | Cancelled
deriving DecidableEq

/-- The source's `run_axe_scan`: return the scanner's records, or, when
the scanner throws, exactly one synthetic critical record with the
reserved `SCAN_ERROR` rule id carrying the failure message. -/
def synthRV (url msg : String) : RawViolation :=
  ⟨url, "critical", "SCAN ERROR: " ++ msg, "", "", "", "SCAN_ERROR", "", ""⟩

def run_axe_scan (scanner : String → Except String (List RawViolation)) (url : String) :
    List RawViolation :=
  match scanner url with
  | .ok items => items
  | .error e => [synthRV url e]

/-- The per-URL loop of `run_scan_thread`.  `flag k` is the value of the
cooperative cancellation flag at its `k`-th read; the loop reads the flag
before starting each URL (its `k`-th read happens with `k` URLs
completed) and stops when it reads true.  Returns the number of URLs
completed and the accumulated raw records. -/
def scanLoop (flag : Nat → Bool) (scan : String → List RawViolation) :
    List String → Nat → List RawViolation → Nat × List RawViolation
  | [], k, acc => (k, acc)
  | u :: rest, k, acc =>
    if flag k then (k, acc)
    else scanLoop flag scan rest (k + 1) (acc ++ scan u)

structure ScanOutcome where
  raw : List RawViolation
  state : ScanState
  results : List ResultRow
deriving DecidableEq

/-- The source's `run_scan_thread`: run the loop, read the flag once more
after the loop to decide cancelled-versus-complete, then aggregate the
accumulated raw records. -/
def run_scan_thread (flag : Nat → Bool)
    (scanner : String → Except String (List RawViolation)) (urls : List String) : ScanOutcome :=
  let p := scanLoop flag (run_axe_scan scanner) urls 0 []
  ⟨p.2, if flag p.1 then ScanState.Cancelled else ScanState.Completed,
    build_aggregated_results p.2⟩

/-- A document whose pandas `//sitemap` extraction succeeds (an XML sitemap index). -/
def xmlIndexDoc (locs : List String) : SitemapDoc := ⟨false, none, some locs, none, none, none⟩

/-- A document whose pandas `//url` extraction succeeds (an XML urlset). -/
def xmlUrlsetDoc (locs : List String) : SitemapDoc := ⟨false, none, none, some locs, none, none⟩

/-- A document only the BeautifulSoup `sitemapindex` fallback recognises. -/
def bs4IndexDoc (locs : List String) : SitemapDoc := ⟨false, none, none, none, some locs, none⟩

/-- A document only the BeautifulSoup `urlset` fallback recognises. -/
def bs4UrlsetDoc (locs : List String) : SitemapDoc := ⟨false, none, none, none, none, some locs⟩

/-- A cyclic sitemap graph: A references B and B references A. -/
def gAB : List (String × SitemapDoc) :=
  [("http://e.com/a.xml", xmlIndexDoc ["http://e.com/b.xml"]),
   ("http://e.com/b.xml", xmlIndexDoc ["http://e.com/a.xml"])]

/-- An index referencing two urlsets of two distinct page URLs each. -/
def g4 : List (String × SitemapDoc) :=
  [("http://e.com/i.xml", xmlIndexDoc ["http://e.com/s1.xml", "http://e.com/s2.xml"]),
   ("http://e.com/s1.xml", xmlUrlsetDoc ["http://e.com/p1", "http://e.com/p2"]),
   ("http://e.com/s2.xml", xmlUrlsetDoc ["http://e.com/p3", "http://e.com/p4"])]

/-- A graph whose root is a BeautifulSoup-fallback sitemap index with one
child whose location does not end in `.xml`; the child is a urlset with
one page. -/
def gNoXml : List (String × SitemapDoc) :=
  [("http://e.com/root", bs4IndexDoc ["http://e.com/child"]),
   ("http://e.com/child", bs4UrlsetDoc ["http://e.com/page"])]

/-- A raw violation with the given url, priority, rule id and tag and
fixed element fields. -/
def mkRV (url pr rule tg : String) : RawViolation :=
  ⟨url, pr, "desc", "<x>", "", "", rule, tg, "txt"⟩

/-- Three records of one key with priorities minor, critical, moderate. -/
def L0 : List RawViolation :=
  [mkRV "http://e.com/p1" "minor" "r1" "a",
   mkRV "http://e.com/p2" "critical" "r1" "a",
   mkRV "http://e.com/p3" "moderate" "r1" "a"]

def k0 : String × String × String × String × String := ("r1", "a", "", "", "txt")

/-- The entry `L0` folds to under `k0`. -/
def e0 : AggEntry :=
  ⟨"critical", "desc", "", "", "r1", "a", "txt",
    ["http://e.com/p1", "http://e.com/p2", "http://e.com/p3"], "<x>"⟩

/-- Two same-rank, same-rule violations differing only in tag: their
aggregate rows tie on the sort key, so their output order follows
first-occurrence order. -/
def vTagA : RawViolation := mkRV "http://e.com/p1" "minor" "r1" "a"

def vTagB : RawViolation := mkRV "http://e.com/p1" "minor" "r1" "b"

/-- A scanner succeeding everywhere with one fixed record per URL. -/
def okScanner : String → Except String (List RawViolation) :=
  fun u => Except.ok [mkRV u "minor" "r1" "a"]

/-- A scanner failing exactly on `"http://e.com/u3"`. -/
def failScanner : String → Except String (List RawViolation) :=
  fun u => if u = "http://e.com/u3" then Except.error "boom" else Except.ok [mkRV u "minor" "r1" "a"]

def urls5 : List String :=
  ["http://e.com/u1", "http://e.com/u2", "http://e.com/u3", "http://e.com/u4", "http://e.com/u5"]

/-- A cancellation flag that turns true at the k-th read. -/
def flagFrom (k : Nat) : Nat → Bool := fun n => decide (k ≤ n)

/-- The state after marking a fresh URL visited and fetching it. -/
def stepState (u : String) (s : WalkState) : WalkState :=
  ⟨insert u s.visited, s.pages, s.fetched ++ [u]⟩

lemma sitemapWalk_skip {g : List (String × SitemapDoc)} {u : String} {s : WalkState}
    (hv : u ∈ s.visited) : (sitemapWalk g u s).val = s := by
  simp only [sitemapWalk, dif_pos hv]

lemma sitemapWalk_fetch_fail {g : List (String × SitemapDoc)} {u : String} {s : WalkState}
    (hv : u ∉ s.visited) (hd : List.lookup u g = none) :
    (sitemapWalk g u s).val = stepState u s := by
  simp only [sitemapWalk, dif_neg hv]
  split
  · rfl
  · next d heq => rw [hd] at heq; cases heq

lemma sitemapWalk_html_noTable {g : List (String × SitemapDoc)} {u : String} {s : WalkState}
    {d : SitemapDoc} (hv : u ∉ s.visited) (hd : List.lookup u g = some d)
    (hh : d.isHtml = true) (hr : d.htmlRows = none) :
    (sitemapWalk g u s).val = stepState u s := by
  simp only [sitemapWalk, dif_neg hv]
  split
  · next heq => rw [hd] at heq; cases heq
  · next d2 heq =>
    rw [hd] at heq; cases heq
    rw [if_pos hh]
    split
    · rfl
    · next rows2 heq2 => rw [hr] at heq2; cases heq2

lemma sitemapWalk_html {g : List (String × SitemapDoc)} {u : String} {s : WalkState}
    {d : SitemapDoc} {rows : List String}
    (hv : u ∉ s.visited) (hd : List.lookup u g = some d) (hh : d.isHtml = true)
    (hr : d.htmlRows = some rows) :
    (sitemapWalk g u s).val = (walkRows g rows (stepState u s)).val := by
  simp only [sitemapWalk, dif_neg hv]
  split
  · next heq => rw [hd] at heq; cases heq
  · next d2 heq =>
    rw [hd] at heq; cases heq
    rw [if_pos hh]
    split
    · next heq2 => rw [hr] at heq2; cases heq2
    · next rows2 heq2 => rw [hr] at heq2; cases heq2; rfl

lemma sitemapWalk_xml_index {g : List (String × SitemapDoc)} {u : String} {s : WalkState}
    {d : SitemapDoc} {locs : List String}
    (hv : u ∉ s.visited) (hd : List.lookup u g = some d) (hh : d.isHtml = false)
    (hsl : d.sitemapLocs = some locs) :
    (sitemapWalk g u s).val
      = (walkKids g ((locs.map strTrim).filter (fun c => c ≠ "")) (stepState u s)).val := by
  simp only [sitemapWalk, dif_neg hv]
  split
  · next heq => rw [hd] at heq; cases heq
  · next d2 heq =>
    rw [hd] at heq; cases heq
    rw [if_neg (by simp [hh])]
    split
    · next locs2 heq2 => rw [hsl] at heq2; cases heq2; rfl
    · next heq2 => rw [hsl] at heq2; cases heq2

lemma sitemapWalk_xml_urlset {g : List (String × SitemapDoc)} {u : String} {s : WalkState}
    {d : SitemapDoc} {locs : List String}
    (hv : u ∉ s.visited) (hd : List.lookup u g = some d) (hh : d.isHtml = false)
    (hsl : d.sitemapLocs = none) (hul : d.urlLocs = some locs) :
    (sitemapWalk g u s).val
      = ⟨insert u s.visited, addPages s.pages (locs.map strTrim), s.fetched ++ [u]⟩ := by
  simp only [sitemapWalk, dif_neg hv]
  split
  · next heq => rw [hd] at heq; cases heq
  · next d2 heq =>
    rw [hd] at heq; cases heq
    rw [if_neg (by simp [hh])]
    split
    · next locs2 heq2 => rw [hsl] at heq2; cases heq2
    · next heq2 =>
      split
      · next locs2 heq3 => rw [hul] at heq3; cases heq3; rfl
      · next heq3 => rw [hul] at heq3; cases heq3

lemma sitemapWalk_bs4_index {g : List (String × SitemapDoc)} {u : String} {s : WalkState}
    {d : SitemapDoc} {locs : List String}
    (hv : u ∉ s.visited) (hd : List.lookup u g = some d) (hh : d.isHtml = false)
    (hsl : d.sitemapLocs = none) (hul : d.urlLocs = none) (hil : d.indexLocs = some locs) :
    (sitemapWalk g u s).val
      = (walkKids g ((locs.map strTrim).filter (fun c => strEndsWith c ".xml"))
          (stepState u s)).val := by
  simp only [sitemapWalk, dif_neg hv]
  split
  · next heq => rw [hd] at heq; cases heq
  · next d2 heq =>
    rw [hd] at heq; cases heq
    rw [if_neg (by simp [hh])]
    split
    · next locs2 heq2 => rw [hsl] at heq2; cases heq2
    · next heq2 =>
      split
      · next locs2 heq3 => rw [hul] at heq3; cases heq3
      · next heq3 =>
        split
        · next locs2 heq4 => rw [hil] at heq4; cases heq4; rfl
        · next heq4 => rw [hil] at heq4; cases heq4

lemma sitemapWalk_bs4_urlset {g : List (String × SitemapDoc)} {u : String} {s : WalkState}
    {d : SitemapDoc} {locs : List String}
    (hv : u ∉ s.visited) (hd : List.lookup u g = some d) (hh : d.isHtml = false)
    (hsl : d.sitemapLocs = none) (hul : d.urlLocs = none) (hil : d.indexLocs = none)
    (hus : d.urlsetLocs = some locs) :
    (sitemapWalk g u s).val
      = ⟨insert u s.visited, addPages s.pages (locs.map strTrim), s.fetched ++ [u]⟩ := by
  simp only [sitemapWalk, dif_neg hv]
  split
  · next heq => rw [hd] at heq; cases heq
  · next d2 heq =>
    rw [hd] at heq; cases heq
    rw [if_neg (by simp [hh])]
    split
    · next locs2 heq2 => rw [hsl] at heq2; cases heq2
    · next heq2 =>
      split
      · next locs2 heq3 => rw [hul] at heq3; cases heq3
      · next heq3 =>
        split
        · next locs2 heq4 => rw [hil] at heq4; cases heq4
        · next heq4 =>
          split
          · next locs2 heq5 => rw [hus] at heq5; cases heq5; rfl
          · next heq5 => rw [hus] at heq5; cases heq5

lemma sitemapWalk_no_format {g : List (String × SitemapDoc)} {u : String} {s : WalkState}
    {d : SitemapDoc}
    (hv : u ∉ s.visited) (hd : List.lookup u g = some d) (hh : d.isHtml = false)
    (hsl : d.sitemapLocs = none) (hul : d.urlLocs = none) (hil : d.indexLocs = none)
    (hus : d.urlsetLocs = none) :
    (sitemapWalk g u s).val = stepState u s := by
  simp only [sitemapWalk, dif_neg hv]
  split
  · next heq => rw [hd] at heq; cases heq
  · next d2 heq =>
    rw [hd] at heq; cases heq
    rw [if_neg (by simp [hh])]
    split
    · next locs2 heq2 => rw [hsl] at heq2; cases heq2
    · next heq2 =>
      split
      · next locs2 heq3 => rw [hul] at heq3; cases heq3
      · next heq3 =>
        split
        · next locs2 heq4 => rw [hil] at heq4; cases heq4
        · next heq4 =>
          split
          · next locs2 heq5 => rw [hus] at heq5; cases heq5
          · next heq5 => rfl

lemma walkKids_nil {g : List (String × SitemapDoc)} {s : WalkState} :
    (walkKids g [] s).val = s := by
  simp only [walkKids]

lemma walkKids_cons {g : List (String × SitemapDoc)} {c : String} {rest : List String}
    {s : WalkState} :
    (walkKids g (c :: rest) s).val = (walkKids g rest (sitemapWalk g c s).val).val := by
  simp only [walkKids]

lemma walkRows_nil {g : List (String × SitemapDoc)} {s : WalkState} :
    (walkRows g [] s).val = s := by
  simp only [walkRows]

lemma walkRows_skip {g : List (String × SitemapDoc)} {r : String} {rest : List String}
    {s : WalkState} (hloc : strTrim r = "") :
    (walkRows g (r :: rest) s).val = (walkRows g rest s).val := by
  simp only [walkRows, if_pos hloc]

lemma walkRows_child {g : List (String × SitemapDoc)} {r : String} {rest : List String}
    {s : WalkState} (hloc : ¬ strTrim r = "") (hxml : strEndsWith (strTrim r) ".xml" = true) :
    (walkRows g (r :: rest) s).val
      = (walkRows g rest (sitemapWalk g (strTrim r) s).val).val := by
  simp only [walkRows, if_neg hloc, if_pos hxml]

lemma walkRows_page {g : List (String × SitemapDoc)} {r : String} {rest : List String}
    {s : WalkState} (hloc : ¬ strTrim r = "") (hxml : ¬ strEndsWith (strTrim r) ".xml" = true) :
    (walkRows g (r :: rest) s).val
      = (walkRows g rest ⟨s.visited, addPageUrl s.pages (strTrim r), s.fetched⟩).val := by
  simp only [walkRows, if_neg hloc, if_neg hxml]

lemma addPageUrl_nodup {pages : List String} {u : String} (h : pages.Nodup) :
    (addPageUrl pages u).Nodup := by
  unfold addPageUrl
  split
  · next hc =>
    refine h.append (List.nodup_singleton u) ?_
    intro x hx hxm
    rw [List.mem_singleton] at hxm
    subst hxm
    exact hc.2 hx
  · exact h

lemma addPages_nodup {locs : List String} :
    ∀ {pages : List String}, pages.Nodup → (addPages pages locs).Nodup := by
  induction locs with
  | nil => intro pages h; exact h
  | cons l rest ih => intro pages h; exact ih (addPageUrl_nodup h)

/-- The joint invariant the traversal maintains: the fetch trace has no
duplicate, every fetched URL is in the visited set, and the collected
pages have no duplicate. -/
def WalkInv (s : WalkState) : Prop :=
  s.fetched.Nodup ∧ (∀ x ∈ s.fetched, x ∈ s.visited) ∧ s.pages.Nodup

lemma walkInvStep {s : WalkState} {u : String} (hv : u ∉ s.visited) (h : WalkInv s) :
    WalkInv (stepState u s) := by
  obtain ⟨h1, h2, h3⟩ := h
  refine ⟨?_, ?_, h3⟩
  · refine h1.append (List.nodup_singleton u) ?_
    intro x hx hxm
    rw [List.mem_singleton] at hxm
    subst hxm
    exact hv (h2 x hx)
  · intro x hx
    rcases List.mem_append.mp hx with hx | hx
    · exact Finset.mem_insert_of_mem (h2 x hx)
    · simp only [List.mem_singleton] at hx
      subst hx
      exact Finset.mem_insert_self _ _

lemma walk_inv (g : List (String × SitemapDoc)) :
    (∀ (u : String) (s : WalkState), WalkInv s → WalkInv (sitemapWalk g u s).val) ∧
    (∀ (locs : List String) (s : WalkState), WalkInv s → WalkInv (walkKids g locs s).val) ∧
    (∀ (rows : List String) (s : WalkState), WalkInv s → WalkInv (walkRows g rows s).val) := by
  refine sitemapWalk.mutual_induct g
    (fun u s => WalkInv s → WalkInv (sitemapWalk g u s).val)
    (fun locs s => WalkInv s → WalkInv (walkKids g locs s).val)
    (fun rows s => WalkInv s → WalkInv (walkRows g rows s).val)
    ?_ ?_ ?_ ?_ ?_ ?_ ?_ ?_ ?_ ?_ ?_ ?_ ?_ ?_ ?_
  · intro u s hv hInv
    rw [sitemapWalk_skip hv]
    exact hInv
  · intro u s hv s1 hs1 hd hInv
    rw [sitemapWalk_fetch_fail hv hd]
    exact walkInvStep hv hInv
  · intro u s hv s1 hs1 d hd hhtml hrows hInv
    rw [sitemapWalk_html_noTable hv hd hhtml hrows]
    exact walkInvStep hv hInv
  · intro u s hv s1 hs1 d hd hhtml rows hrows ih ih2 hInv
    rw [sitemapWalk_html hv hd hhtml hrows]
    exact ih2 (walkInvStep hv hInv)
  · intro u s hv s1 hs1 d hd hhtml locs hsl ih ih2 hInv
    rw [sitemapWalk_xml_index hv hd (Bool.not_eq_true _ ▸ hhtml) hsl]
    exact ih2 (walkInvStep hv hInv)
  · intro u s hv s1 hs1 d hd hhtml hsl locs hul hInv
    rw [sitemapWalk_xml_urlset hv hd (Bool.not_eq_true _ ▸ hhtml) hsl hul]
    exact ⟨(walkInvStep hv hInv).1, (walkInvStep hv hInv).2.1,
      addPages_nodup (walkInvStep hv hInv).2.2⟩
  · intro u s hv s1 hs1 d hd hhtml hsl hul locs hil ih ih2 hInv
    rw [sitemapWalk_bs4_index hv hd (Bool.not_eq_true _ ▸ hhtml) hsl hul hil]
    exact ih2 (walkInvStep hv hInv)
  · intro u s hv s1 hs1 d hd hhtml hsl hul hil locs hus hInv
    rw [sitemapWalk_bs4_urlset hv hd (Bool.not_eq_true _ ▸ hhtml) hsl hul hil hus]
    exact ⟨(walkInvStep hv hInv).1, (walkInvStep hv hInv).2.1,
      addPages_nodup (walkInvStep hv hInv).2.2⟩
  · intro u s hv s1 hs1 d hd hhtml hsl hul hil hus hInv
    rw [sitemapWalk_no_format hv hd (Bool.not_eq_true _ ▸ hhtml) hsl hul hil hus]
    exact walkInvStep hv hInv
  · intro s hInv
    rw [walkKids_nil]
    exact hInv
  · intro s c rest t ih ih2 ih3 hInv
    rw [walkKids_cons]
    exact ih3 (ih hInv)
  · intro s hInv
    rw [walkRows_nil]
    exact hInv
  · intro s r rest loc hloc ih hInv
    rw [walkRows_skip hloc]
    exact ih hInv
  · intro s r rest loc hloc hxml t ih ihl ih2 ih3 hInv
    rw [walkRows_child hloc hxml]
    exact ih3 (ihl hInv)
  · intro s r rest loc hloc hxml ih hInv
    rw [walkRows_page hloc hxml]
    exact ih ⟨hInv.1, hInv.2.1, addPageUrl_nodup hInv.2.2⟩

lemma initWalkInv : WalkInv initWalkState :=
  ⟨List.nodup_nil, fun x hx => absurd hx (List.not_mem_nil x), List.nodup_nil⟩

lemma resolveRun_inv (g : List (String × SitemapDoc)) (root : String) :
    WalkInv (resolveRun g root) :=
  (walk_inv g).1 root initWalkState initWalkInv

/-- C1: for every sitemap graph, the traversal is a total function
(`sitemapWalk` is defined by well-founded recursion on the unvisited part
of the graph's finite URL universe, so it terminates on every graph,
cyclic ones included), its fetch trace never repeats a URL, and a URL
already in the visited set is skipped: the walk returns the state
unchanged without fetching. -/
theorem resolver_visits_each_url_once :
    (∀ (g : List (String × SitemapDoc)) (root : String),
        (resolveRun g root).fetched.Nodup) ∧
    (∀ (g : List (String × SitemapDoc)) (u : String) (s : WalkState),
        u ∈ s.visited → (sitemapWalk g u s).val = s) :=
  ⟨fun g root => (resolveRun_inv g root).1, fun _ _ _ hv => sitemapWalk_skip hv⟩

/-- A state in which the cyclic graph's root is already visited. -/
def sVisited : WalkState := ⟨{"http://e.com/a.xml"}, [], []⟩

/-- Witness for C1 on the cyclic two-node graph `gAB` (A references B and
B references A): the resolution run fetches each URL exactly once, and a
walk started on an already-visited URL is a no-op. -/
theorem resolver_visits_each_url_once_witness :
    (resolveRun gAB "http://e.com/a.xml").fetched.Nodup ∧
    ("http://e.com/a.xml" ∈ sVisited.visited ∧
      (sitemapWalk gAB "http://e.com/a.xml" sVisited).val = sVisited) ∧
    (resolveRun gAB "http://e.com/a.xml").fetched
      = ["http://e.com/a.xml", "http://e.com/b.xml"] := by
  refine ⟨resolver_visits_each_url_once.1 gAB _,
    ⟨by simp [sVisited],
     resolver_visits_each_url_once.2 gAB _ sVisited (by simp [sVisited])⟩, ?_⟩
  have h1 : strTrim "http://e.com/b.xml" = "http://e.com/b.xml" := by decide
  have h2 : strTrim "http://e.com/a.xml" = "http://e.com/a.xml" := by decide
  simp [resolveRun, sitemapWalk, walkKids, gAB, initWalkState, xmlIndexDoc, List.lookup, h1, h2]

/-- C8: the resolver's page list never contains a duplicate, and on an
index referencing two urlsets of two document-ordered page URLs each it
returns exactly those four URLs in depth-first document order, with no
sorting applied. -/
theorem resolver_order_dedup :
    (∀ (g : List (String × SitemapDoc)) (root : String),
        (extract_urls_from_sitemap g root).Nodup) ∧
    extract_urls_from_sitemap g4 "http://e.com/i.xml"
      = ["http://e.com/p1", "http://e.com/p2", "http://e.com/p3", "http://e.com/p4"] := by
  refine ⟨fun g root => (resolveRun_inv g root).2.2, ?_⟩
  have h1 : strTrim "http://e.com/s1.xml" = "http://e.com/s1.xml" := by decide
  have h2 : strTrim "http://e.com/s2.xml" = "http://e.com/s2.xml" := by decide
  have h3 : strTrim "http://e.com/p1" = "http://e.com/p1" := by decide
  have h4 : strTrim "http://e.com/p2" = "http://e.com/p2" := by decide
  have h5 : strTrim "http://e.com/p3" = "http://e.com/p3" := by decide
  have h6 : strTrim "http://e.com/p4" = "http://e.com/p4" := by decide
  simp [extract_urls_from_sitemap, resolveRun, sitemapWalk, walkKids, g4, initWalkState,
    xmlIndexDoc, xmlUrlsetDoc, List.lookup, addPages, addPageUrl, h1, h2, h3, h4, h5, h6]

/-- Counterexample to C5: in the BeautifulSoup fallback the resolver does
not recurse into every child location of a sitemap index.  In `gNoXml`
the root is a fallback sitemap index whose one child location
`http://e.com/child` (present in the graph, a urlset with one page) does
not end in `.xml`: the run fetches only the root, never fetches the
child, and collects no page URL at all. -/
theorem bs4_index_child_not_followed :
    ("http://e.com/child", bs4UrlsetDoc ["http://e.com/page"]) ∈ gNoXml ∧
    (resolveRun gNoXml "http://e.com/root").fetched = ["http://e.com/root"] ∧
    "http://e.com/child" ∉ (resolveRun gNoXml "http://e.com/root").fetched ∧
    extract_urls_from_sitemap gNoXml "http://e.com/root" = [] := by
  have h1 : strTrim "http://e.com/child" = "http://e.com/child" := by decide
  have h2 : strEndsWith "http://e.com/child" ".xml" = false := by decide
  have h3 : (resolveRun gNoXml "http://e.com/root").fetched = ["http://e.com/root"] := by
    simp [resolveRun, sitemapWalk, walkKids, gNoXml, initWalkState, bs4IndexDoc, bs4UrlsetDoc,
      List.lookup, h1, h2]
  refine ⟨by simp [gNoXml], h3, ?_, ?_⟩
  · rw [h3]; decide
  · simp [extract_urls_from_sitemap, resolveRun, sitemapWalk, walkKids, gNoXml, initWalkState,
      bs4IndexDoc, bs4UrlsetDoc, List.lookup, h1, h2]

/-- C5 as amended: in the element-tree fallback, a `sitemapindex` root
makes the resolver recurse only into those children whose trimmed
location text ends in `.xml` (other children are skipped entirely), and a
`urlset` root makes it collect every item's trimmed location text
directly as a page URL. -/
theorem bs4_fallback_xml_filter :
    ∀ (g : List (String × SitemapDoc)) (u : String) (s : WalkState) (d : SitemapDoc)
      (locs : List String),
      u ∉ s.visited → List.lookup u g = some d → d.isHtml = false →
      d.sitemapLocs = none → d.urlLocs = none →
      ((d.indexLocs = some locs →
        (sitemapWalk g u s).val
          = (walkKids g ((locs.map strTrim).filter (fun c => strEndsWith c ".xml"))
              (stepState u s)).val) ∧
       (d.indexLocs = none → d.urlsetLocs = some locs →
        (sitemapWalk g u s).val
          = ⟨insert u s.visited, addPages s.pages (locs.map strTrim), s.fetched ++ [u]⟩)) :=
  fun _ _ _ _ _ hv hd hh hsl hul =>
    ⟨fun hil => sitemapWalk_bs4_index hv hd hh hsl hul hil,
     fun hil hus => sitemapWalk_bs4_urlset hv hd hh hsl hul hil hus⟩

/-- Witness for the amended C5 at the root of `gNoXml`. -/
theorem bs4_fallback_xml_filter_witness :
    ("http://e.com/root" ∉ initWalkState.visited) ∧
    List.lookup "http://e.com/root" gNoXml = some (bs4IndexDoc ["http://e.com/child"]) ∧
    (sitemapWalk gNoXml "http://e.com/root" initWalkState).val
      = (walkKids gNoXml ((["http://e.com/child"].map strTrim).filter
          (fun c => strEndsWith c ".xml")) (stepState "http://e.com/root" initWalkState)).val :=
  ⟨by simp [initWalkState],
   by simp [gNoXml, List.lookup],
   (bs4_fallback_xml_filter gNoXml "http://e.com/root" initWalkState
      (bs4IndexDoc ["http://e.com/child"]) ["http://e.com/child"]
      (by simp [initWalkState]) (by simp [gNoXml, List.lookup]) rfl rfl rfl).1 rfl⟩

lemma lookupA_append_none {m l : List ((String × String × String × String × String) × AggEntry)}
    {k : String × String × String × String × String} (h : lookupA m k = none) :
    lookupA (m ++ l) k = lookupA l k := by
  induction m with
  | nil => rfl
  | cons p rest ih =>
    obtain ⟨k', e⟩ := p
    simp only [lookupA] at h ⊢
    split at h
    · cases h
    · next hne => rw [if_neg hne]; exact ih h

lemma lookupA_append_some {m l : List ((String × String × String × String × String) × AggEntry)}
    {k : String × String × String × String × String} {e : AggEntry}
    (h : lookupA m k = some e) : lookupA (m ++ l) k = some e := by
  induction m with
  | nil => cases h
  | cons p rest ih =>
    obtain ⟨k', e'⟩ := p
    simp only [lookupA] at h ⊢
    split at h
    · next heq => cases h; rw [if_pos heq]
    · next hne => rw [if_neg hne]; exact ih h

lemma lookupA_updA_self {m : List ((String × String × String × String × String) × AggEntry)}
    {k : String × String × String × String × String} {f : AggEntry → AggEntry} {e : AggEntry}
    (h : lookupA m k = some e) : lookupA (updA m k f) k = some (f e) := by
  induction m with
  | nil => cases h
  | cons p rest ih =>
    obtain ⟨k', e'⟩ := p
    simp only [lookupA, updA] at h ⊢
    split at h
    · next heq => cases h; rw [if_pos heq, lookupA, if_pos heq]
    · next hne => rw [if_neg hne, lookupA, if_neg hne]; exact ih h

lemma lookupA_updA_ne {m : List ((String × String × String × String × String) × AggEntry)}
    {k k' : String × String × String × String × String} {f : AggEntry → AggEntry}
    (h : k' ≠ k) : lookupA (updA m k f) k' = lookupA m k' := by
  induction m with
  | nil => rfl
  | cons p rest ih =>
    obtain ⟨k2, e⟩ := p
    simp only [lookupA, updA]
    by_cases h2 : k2 = k
    · subst h2
      rw [if_pos rfl, lookupA, if_neg (fun hh => h hh.symm), if_neg (fun hh => h hh.symm)]
    · rw [if_neg h2, lookupA]
      by_cases h3 : k2 = k'
      · rw [if_pos h3, if_pos h3]
      · rw [if_neg h3, if_neg h3]; exact ih

lemma updA_id {m : List ((String × String × String × String × String) × AggEntry)}
    {k : String × String × String × String × String} {f : AggEntry → AggEntry}
    (h : ∀ e, lookupA m k = some e → f e = e) : updA m k f = m := by
  induction m with
  | nil => rfl
  | cons p rest ih =>
    obtain ⟨k', e⟩ := p
    simp only [updA]
    by_cases h2 : k' = k
    · rw [if_pos h2, h e (by rw [lookupA, if_pos h2])]
    · rw [if_neg h2]
      simp only [List.cons.injEq, true_and]
      exact ih (fun e' he' => h e' (by rw [lookupA, if_neg h2]; exact he'))

lemma updA_keys {m : List ((String × String × String × String × String) × AggEntry)}
    {k : String × String × String × String × String} {f : AggEntry → AggEntry} :
    (updA m k f).map Prod.fst = m.map Prod.fst := by
  induction m with
  | nil => rfl
  | cons p rest ih =>
    obtain ⟨k', e⟩ := p
    simp only [updA]
    by_cases h2 : k' = k
    · rw [if_pos h2]; simp
    · rw [if_neg h2]; simpa using ih

lemma lookupA_none_iff {m : List ((String × String × String × String × String) × AggEntry)}
    {k : String × String × String × String × String} :
    lookupA m k = none ↔ k ∉ m.map Prod.fst := by
  induction m with
  | nil => simp [lookupA]
  | cons p rest ih =>
    obtain ⟨k', e⟩ := p
    simp only [lookupA, List.map_cons, List.mem_cons]
    by_cases h2 : k' = k
    · subst h2; simp
    · rw [if_neg h2]
      simp only [ih]
      constructor
      · intro h hc; rcases hc with hc | hc
        · exact h2 hc.symm
        · exact h hc
      · intro h; exact fun hc => h (Or.inr hc)

lemma lookupA_of_mem {m : List ((String × String × String × String × String) × AggEntry)}
    (hnd : (m.map Prod.fst).Nodup) {k : String × String × String × String × String}
    {e : AggEntry} (h : (k, e) ∈ m) : lookupA m k = some e := by
  induction m with
  | nil => cases h
  | cons p rest ih =>
    obtain ⟨k', e'⟩ := p
    simp only [List.map_cons, List.nodup_cons] at hnd
    rcases List.mem_cons.mp h with h | h
    · cases h; rw [lookupA, if_pos rfl]
    · rw [lookupA]
      have hk : k' ≠ k := by
        intro hh
        subst hh
        exact hnd.1 (by simpa using ⟨e, h⟩)
      rw [if_neg hk]
      exact ih hnd.2 h

lemma neg_one_le_rank (p : String) : (-1 : Int) ≤ severity_rank p := by
  unfold severity_rank
  split <;> try norm_num
  split <;> try norm_num
  split <;> try norm_num
  split <;> norm_num

lemma le_foldl_max {ms : List RawViolation} :
    ∀ {init x : Int}, x ≤ init →
      x ≤ ms.foldl (fun a v => max a (severity_rank v.priority)) init := by
  induction ms with
  | nil => intro init x h; exact h
  | cons v rest ih =>
    intro init x h
    exact ih (h.trans (le_max_left _ _))

lemma rank_le_foldl_max {ms : List RawViolation} {w : RawViolation} (h : w ∈ ms) :
    ∀ (init : Int),
      severity_rank w.priority ≤ ms.foldl (fun a v => max a (severity_rank v.priority)) init := by
  induction ms with
  | nil => cases h
  | cons v rest ih =>
    intro init
    rw [List.foldl_cons]
    rcases List.mem_cons.mp h with h | h
    · subst h
      exact le_foldl_max (le_max_right _ _)
    · exact ih h _

lemma rank_le_maxRank {ms : List RawViolation} {w : RawViolation} (h : w ∈ ms) :
    severity_rank w.priority ≤ maxRank ms :=
  rank_le_foldl_max h _

lemma maxRank_snoc (ms : List RawViolation) (v : RawViolation) :
    maxRank (ms ++ [v]) = max (maxRank ms) (severity_rank v.priority) := by
  unfold maxRank
  rw [List.foldl_append]
  rfl

lemma maxRank_single (v : RawViolation) : maxRank [v] = severity_rank v.priority := by
  unfold maxRank
  simp only [List.foldl_cons, List.foldl_nil]
  exact max_eq_right (neg_one_le_rank _)

lemma mem_addUrl {us : List String} {x u : String} (h : x ∈ us) : x ∈ addUrl us u := by
  unfold addUrl
  split
  · exact h
  · exact List.mem_append_left _ h

lemma self_mem_addUrl (us : List String) (u : String) : u ∈ addUrl us u := by
  unfold addUrl
  split
  · next hmem => exact hmem
  · exact List.mem_append_right _ (List.mem_singleton_self _)

lemma mem_foldl_addUrl {ms : List RawViolation} :
    ∀ {acc : List String} {x : String}, x ∈ acc →
      x ∈ ms.foldl (fun us v => addUrl us v.url) acc := by
  induction ms with
  | nil => intro acc x h; exact h
  | cons v rest ih =>
    intro acc x h
    rw [List.foldl_cons]
    exact ih (mem_addUrl h)

lemma url_mem_foldl_addUrl {ms : List RawViolation} {v : RawViolation} (h : v ∈ ms) :
    ∀ (acc : List String), v.url ∈ ms.foldl (fun us w => addUrl us w.url) acc := by
  induction ms with
  | nil => cases h
  | cons w rest ih =>
    intro acc
    rw [List.foldl_cons]
    rcases List.mem_cons.mp h with h | h
    · subst h
      exact mem_foldl_addUrl (self_mem_addUrl _ _)
    · exact ih h _

lemma url_mem_urlFold {ms : List RawViolation} {v : RawViolation} (h : v ∈ ms) :
    v.url ∈ urlFold ms :=
  url_mem_foldl_addUrl h []

lemma addUrl_nodup {us : List String} {u : String} (h : us.Nodup) : (addUrl us u).Nodup := by
  unfold addUrl
  split
  · exact h
  · next hmem =>
    refine h.append (List.nodup_singleton u) ?_
    intro x hx hxm
    rw [List.mem_singleton] at hxm
    subst hxm
    exact hmem hx

lemma foldl_addUrl_nodup {ms : List RawViolation} :
    ∀ {acc : List String}, acc.Nodup →
      (ms.foldl (fun us v => addUrl us v.url) acc).Nodup := by
  induction ms with
  | nil => intro acc h; exact h
  | cons v rest ih => intro acc h; exact ih (addUrl_nodup h)

lemma urlFold_nodup (ms : List RawViolation) : (urlFold ms).Nodup :=
  foldl_addUrl_nodup List.nodup_nil

lemma urlFold_snoc (ms : List RawViolation) (v : RawViolation) :
    urlFold (ms ++ [v]) = addUrl (urlFold ms) v.url := by
  unfold urlFold
  rw [List.foldl_append]
  rfl

lemma matchingOf_snoc (L : List RawViolation) (v : RawViolation)
    (k : String × String × String × String × String) :
    matchingOf (L ++ [v]) k
      = matchingOf L k ++ (if keyOf v = k then [v] else []) := by
  unfold matchingOf
  rw [List.filter_append]
  by_cases h : keyOf v = k
  · simp [h]
  · simp [h]

lemma self_mem_matchingOf {L : List RawViolation} {v : RawViolation} (h : v ∈ L) :
    v ∈ matchingOf L (keyOf v) := by
  unfold matchingOf
  rw [List.mem_filter]
  exact ⟨h, by simp⟩

lemma aggMap_snoc (L : List RawViolation) (v : RawViolation) :
    aggMap (L ++ [v]) = foldStep (aggMap L) v := by
  unfold aggMap
  rw [List.foldl_append]
  rfl

lemma aggMap_spec (L : List RawViolation) :
    (∀ k, lookupA (aggMap L) k = none → matchingOf L k = []) ∧
    (∀ k e, lookupA (aggMap L) k = some e →
      e.urls = urlFold (matchingOf L k) ∧
      severity_rank e.priority = maxRank (matchingOf L k) ∧
      ∃ w, (matchingOf L k).find?
            (fun x => decide (severity_rank x.priority = maxRank (matchingOf L k))) = some w ∧
        e.priority = w.priority) := by
  induction L using List.reverseRecOn with
  | nil =>
    constructor
    · intro k _
      rfl
    · intro k e h
      cases h
  | append_singleton L v ih =>
    obtain ⟨ihn, ihs⟩ := ih
    constructor
    · intro k h
      rw [aggMap_snoc] at h
      unfold foldStep at h
      rw [matchingOf_snoc]
      cases hm : lookupA (aggMap L) (keyOf v) with
      | some e' =>
        rw [hm] at h
        by_cases hk : keyOf v = k
        · subst hk
          rw [lookupA_updA_self hm] at h
          cases h
        · rw [lookupA_updA_ne (fun hh => hk hh.symm)] at h
          rw [ihn k h, if_neg hk]
          rfl
      | none =>
        rw [hm] at h
        by_cases hk : keyOf v = k
        · subst hk
          rw [lookupA_append_none hm, lookupA, if_pos rfl] at h
          cases h
        · have hmk : lookupA (aggMap L) k = none := by
            cases hmk2 : lookupA (aggMap L) k with
            | none => rfl
            | some e2 => rw [lookupA_append_some hmk2] at h; cases h
          rw [ihn k hmk, if_neg hk]
          rfl
    · intro k e h
      rw [aggMap_snoc] at h
      unfold foldStep at h
      cases hm : lookupA (aggMap L) (keyOf v) with
      | some e' =>
        rw [hm] at h
        by_cases hk : keyOf v = k
        · subst hk
          rw [lookupA_updA_self hm] at h
          injection h with he
          subst he
          obtain ⟨hu, hr, w, hw, hwp⟩ := ihs _ e' hm
          have hmsnoc : matchingOf (L ++ [v]) (keyOf v) = matchingOf L (keyOf v) ++ [v] := by
            rw [matchingOf_snoc, if_pos rfl]
          simp only [hmsnoc, maxRank_snoc]
          by_cases hlt : severity_rank e'.priority < severity_rank v.priority
          · have hMr : max (maxRank (matchingOf L (keyOf v))) (severity_rank v.priority)
                = severity_rank v.priority := max_eq_right (le_of_lt (hr ▸ hlt))
            simp only [hMr]
            refine ⟨?_, ?_, ⟨v, ?_, ?_⟩⟩
            · rw [urlFold_snoc, ← hu]
              rfl
            · have hp : (mergeV e' v).priority = v.priority := by
                simp [mergeV, if_pos hlt]
              rw [hp]
            · rw [List.find?_append]
              have hnone : (matchingOf L (keyOf v)).find?
                  (fun x => decide (severity_rank x.priority = severity_rank v.priority))
                    = none := by
                rw [List.find?_eq_none]
                intro x hx
                simp only [decide_eq_true_eq]
                intro hh
                have hxle := rank_le_maxRank hx
                rw [hh] at hxle
                exact absurd hxle (not_le.mpr (hr ▸ hlt))
              rw [hnone]
              show Option.or none _ = _
              rw [Option.none_or]
              simp [List.find?]
            · simp [mergeV, if_pos hlt]
          · have hle : severity_rank v.priority ≤ maxRank (matchingOf L (keyOf v)) := by
              rw [← hr]
              exact not_lt.mp hlt
            have hMr : max (maxRank (matchingOf L (keyOf v))) (severity_rank v.priority)
                = maxRank (matchingOf L (keyOf v)) := max_eq_left hle
            simp only [hMr]
            refine ⟨?_, ?_, ⟨w, ?_, ?_⟩⟩
            · rw [urlFold_snoc, ← hu]
              rfl
            · have hp : (mergeV e' v).priority = e'.priority := by
                simp [mergeV, if_neg hlt]
              rw [hp, hr]
            · rw [List.find?_append, hw]
              rfl

            · have hp : (mergeV e' v).priority = e'.priority := by
                simp [mergeV, if_neg hlt]
              rw [hp, hwp]
        · rw [lookupA_updA_ne (fun hh => hk hh.symm)] at h
          have hmm := ihs k e h
          have hmsnoc : matchingOf (L ++ [v]) k = matchingOf L k := by
            rw [matchingOf_snoc, if_neg hk, List.append_nil]
          simp only [hmsnoc]
          exact hmm
      | none =>
        rw [hm] at h
        by_cases hk : keyOf v = k
        · subst hk
          rw [lookupA_append_none hm, lookupA, if_pos rfl] at h
          injection h with he
          subst he
          have hms : matchingOf L (keyOf v) = [] := ihn _ hm
          have hmsnoc : matchingOf (L ++ [v]) (keyOf v) = [v] := by
            rw [matchingOf_snoc, if_pos rfl, hms, List.nil_append]
          simp only [hmsnoc, maxRank_single]
          refine ⟨?_, ?_, ⟨v, ?_, ?_⟩⟩
          · simp [mergeV, seedEntry, urlFold, addUrl]
          · by_cases hlt : severity_rank (seedEntry v).priority < severity_rank v.priority
            · simp [mergeV, if_pos hlt]
            · simp [mergeV, if_neg hlt, seedEntry]
          · simp [List.find?]
          · by_cases hlt : severity_rank (seedEntry v).priority < severity_rank v.priority
            · simp [mergeV, if_pos hlt]
            · simp [mergeV, if_neg hlt, seedEntry]
        · cases hmk2 : lookupA (aggMap L) k with
          | none =>
            rw [lookupA_append_none hmk2, lookupA, if_neg hk] at h
            cases h
          | some e2 =>
            rw [lookupA_append_some hmk2] at h
            injection h with he
            subst he
            simp only [matchingOf_snoc, if_neg hk, List.append_nil]
            exact ihs k e2 hmk2

lemma mem_key_lookup {L : List RawViolation} {v : RawViolation} (h : v ∈ L) :
    ∃ e, lookupA (aggMap L) (keyOf v) = some e := by
  cases hm : lookupA (aggMap L) (keyOf v) with
  | none =>
    exfalso
    have hempty := (aggMap_spec L).1 _ hm
    have hmem := self_mem_matchingOf h
    rw [hempty] at hmem
    cases hmem
  | some e => exact ⟨e, rfl⟩

lemma foldStep_absorbed {L : List RawViolation} {v : RawViolation} (h : v ∈ L) :
    foldStep (aggMap L) v = aggMap L := by
  obtain ⟨e, hm⟩ := mem_key_lookup h
  have spec := (aggMap_spec L).2 _ e hm
  unfold foldStep
  rw [hm]
  apply updA_id
  intro e2 he2
  rw [hm] at he2
  injection he2 with he3
  subst he3
  have hurl : v.url ∈ e.urls := by
    rw [spec.1]
    exact url_mem_urlFold (self_mem_matchingOf h)
  have hrank : ¬ (severity_rank e.priority < severity_rank v.priority) := by
    rw [spec.2.1]
    exact not_lt.mpr (rank_le_maxRank (self_mem_matchingOf h))
  simp [mergeV, addUrl, hurl, hrank]

lemma foldl_foldStep_fixed {M : List ((String × String × String × String × String) × AggEntry)}
    {L : List RawViolation} (h : ∀ v ∈ L, foldStep M v = M) :
    List.foldl foldStep M L = M := by
  induction L with
  | nil => rfl
  | cons v rest ih =>
    rw [List.foldl_cons, h v (List.mem_cons_self _ _)]
    exact ih (fun w hw => h w (List.mem_cons_of_mem _ hw))

lemma aggMap_replay (L : List RawViolation) : aggMap (L ++ L) = aggMap L := by
  show List.foldl foldStep [] (L ++ L) = aggMap L
  rw [List.foldl_append]
  exact foldl_foldStep_fixed (fun v hv => foldStep_absorbed hv)

/-- C3: aggregation is a pure function of the full raw-violation list —
recomputing it yields an identical result — and it is idempotent under
replay: aggregating the list replayed twice equals aggregating it once. -/
theorem aggregation_idempotent_under_replay (L : List RawViolation) :
    build_aggregated_results (L ++ L) = build_aggregated_results L ∧
    build_aggregated_results L = build_aggregated_results L :=
  ⟨by unfold build_aggregated_results; rw [aggMap_replay], rfl⟩

/-- C2: for every aggregate entry of the folded map, the severity rank of
its stored priority equals the maximum severity rank over all raw
violations matching its key (rank table: critical=3, serious=2,
moderate=1, minor=0, other=-1), and the stored priority string is the one
of the first matching record attaining that maximum — so the priority is
replaced only when a new record's rank is strictly greater, ties keep the
existing value, and it is never downgraded. -/
theorem aggregate_priority_is_max_severity (L : List RawViolation)
    (k : String × String × String × String × String) (e : AggEntry)
    (h : lookupA (aggMap L) k = some e) :
    severity_rank e.priority = maxRank (matchingOf L k) ∧
    ∃ w, (matchingOf L k).find?
          (fun x => decide (severity_rank x.priority = maxRank (matchingOf L k))) = some w ∧
      e.priority = w.priority :=
  ⟨((aggMap_spec L).2 k e h).2.1, ((aggMap_spec L).2 k e h).2.2⟩

/-- Witness for C2 on `L0` (priorities minor, critical, moderate under one
key): the stored entry `e0` has priority `critical`, the maximum severity. -/
theorem aggregate_priority_is_max_severity_witness :
    lookupA (aggMap L0) k0 = some e0 ∧
    (severity_rank e0.priority = maxRank (matchingOf L0 k0) ∧
      ∃ w, (matchingOf L0 k0).find?
            (fun x => decide (severity_rank x.priority = maxRank (matchingOf L0 k0))) = some w ∧
        e0.priority = w.priority) ∧
    e0.priority = "critical" :=
  ⟨by decide, aggregate_priority_is_max_severity L0 k0 e0 (by decide), by decide⟩

lemma aggMap_keys_nodup (L : List RawViolation) : ((aggMap L).map Prod.fst).Nodup := by
  induction L using List.reverseRecOn with
  | nil => exact List.nodup_nil
  | append_singleton L v ih =>
    rw [aggMap_snoc]
    unfold foldStep
    cases hm : lookupA (aggMap L) (keyOf v) with
    | some e' => rw [updA_keys]; exact ih
    | none =>
      rw [List.map_append]
      simp only [List.map_cons, List.map_nil]
      refine ih.append (List.nodup_singleton _) ?_
      intro x hx hxm
      rw [List.mem_singleton] at hxm
      subst hxm
      exact (lookupA_none_iff.mp hm) hx

/-- C9: every result row's `url_count` equals the length of its `urls`
list, and that list contains no duplicate page URL. -/
theorem url_count_matches_urls (L : List RawViolation) (row : ResultRow)
    (h : row ∈ build_aggregated_results L) :
    row.url_count = row.urls.length ∧ row.urls.Nodup := by
  have hmem : row ∈ (aggMap L).map (fun p => rowOf p.2) :=
    (List.perm_insertionSort rowLe _).subset h
  obtain ⟨p, hp, hrow⟩ := List.mem_map.mp hmem
  subst hrow
  refine ⟨rfl, ?_⟩
  have hnd := aggMap_keys_nodup L
  have hlk : lookupA (aggMap L) p.1 = some p.2 := by
    obtain ⟨k, e⟩ := p
    exact lookupA_of_mem hnd hp
  have spec := (aggMap_spec L).2 _ _ hlk
  have hnodup : p.2.urls.Nodup := by
    rw [spec.1]
    exact urlFold_nodup _
  show (sortStrings p.2.urls).Nodup
  exact ((List.perm_insertionSort _ _).nodup_iff).mpr hnodup

/-- The single result row `L0` aggregates to. -/
def row0 : ResultRow :=
  ⟨"r1", "critical", "desc", "", "", "a", "txt",
    ["http://e.com/p1", "http://e.com/p2", "http://e.com/p3"], 3, "<x>"⟩

/-- Witness for C9 on `L0`: its one output row has `url_count = 3 = |urls|`
and duplicate-free URLs. -/
theorem url_count_matches_urls_witness :
    row0 ∈ build_aggregated_results L0 ∧ row0.url_count = row0.urls.length ∧ row0.urls.Nodup :=
  ⟨by decide, (url_count_matches_urls L0 row0 (by decide)).1,
    (url_count_matches_urls L0 row0 (by decide)).2⟩

lemma strListLt_trans : ∀ {as bs cs : List Char},
    strListLt as bs = true → strListLt bs cs = true → strListLt as cs = true := by
  intro as
  induction as with
  | nil =>
    intro bs cs h1 h2
    cases bs with
    | nil => cases h1
    | cons b bs2 =>
      cases cs with
      | nil => cases h2
      | cons c cs2 => rfl
  | cons a as2 ih =>
    intro bs cs h1 h2
    cases bs with
    | nil => cases h1
    | cons b bs2 =>
      cases cs with
      | nil => cases h2
      | cons c cs2 =>
        simp only [strListLt, Bool.or_eq_true, decide_eq_true_eq, Bool.and_eq_true,
          beq_iff_eq] at h1 h2 ⊢
        rcases h1 with h1 | ⟨h1e, h1r⟩
        · rcases h2 with h2 | ⟨h2e, h2r⟩
          · exact Or.inl (h1.trans h2)
          · exact Or.inl (h2e ▸ h1)
        · rcases h2 with h2 | ⟨h2e, h2r⟩
          · exact Or.inl (h1e ▸ h2)
          · exact Or.inr ⟨h1e.trans h2e, ih h1r h2r⟩

lemma strListLt_connex : ∀ (as bs : List Char),
    as ≠ bs → strListLt as bs = true ∨ strListLt bs as = true := by
  intro as
  induction as with
  | nil =>
    intro bs hne
    cases bs with
    | nil => exact absurd rfl hne
    | cons b bs2 => exact Or.inl rfl
  | cons a as2 ih =>
    intro bs hne
    cases bs with
    | nil => exact Or.inr rfl
    | cons b bs2 =>
      simp only [strListLt, Bool.or_eq_true, decide_eq_true_eq, Bool.and_eq_true, beq_iff_eq]
      rcases lt_trichotomy a b with hab | hab | hab
      · exact Or.inl (Or.inl hab)
      · subst hab
        have hne2 : as2 ≠ bs2 := fun hh => hne (by rw [hh])
        rcases ih bs2 hne2 with h | h
        · exact Or.inl (Or.inr ⟨rfl, h⟩)
        · exact Or.inr (Or.inr ⟨rfl, h⟩)
      · exact Or.inr (Or.inl hab)

lemma strLe_total (a b : String) : strLe a b = true ∨ strLe b a = true := by
  by_cases h : a = b
  · subst h
    exact Or.inl (by simp [strLe])
  · have hd : a.data ≠ b.data := by
      intro hh
      apply h
      cases a
      cases b
      exact congrArg String.mk hh
    rcases strListLt_connex a.data b.data hd with hlt | hlt
    · exact Or.inl (by simp [strLe, strLt, hlt])
    · exact Or.inr (by simp [strLe, strLt, hlt])

lemma strLe_trans {a b c : String} (h1 : strLe a b = true) (h2 : strLe b c = true) :
    strLe a c = true := by
  simp only [strLe, Bool.or_eq_true, beq_iff_eq] at h1 h2 ⊢
  rcases h1 with h1 | h1
  · rcases h2 with h2 | h2
    · exact Or.inl (strListLt_trans h1 h2)
    · subst h2; exact Or.inl h1
  · subst h1
    exact h2

instance : IsTotal ResultRow rowLe :=
  ⟨by
    intro r1 r2
    unfold rowLe
    rcases lt_trichotomy (severity_rank r1.priority) (severity_rank r2.priority) with h | h | h
    · exact Or.inr (Or.inl h)
    · rcases strLe_total r1.error_id r2.error_id with h2 | h2
      · exact Or.inl (Or.inr ⟨h, h2⟩)
      · exact Or.inr (Or.inr ⟨h.symm, h2⟩)
    · exact Or.inl (Or.inl h)⟩

instance : IsTrans ResultRow rowLe :=
  ⟨by
    intro r1 r2 r3 h1 h2
    unfold rowLe at h1 h2 ⊢
    rcases h1 with h1 | ⟨h1e, h1s⟩
    · rcases h2 with h2 | ⟨h2e, h2s⟩
      · exact Or.inl (h2.trans h1)
      · exact Or.inl (h2e ▸ h1)
    · rcases h2 with h2 | ⟨h2e, h2s⟩
      · exact Or.inl (by rw [h1e]; exact h2)
      · exact Or.inr ⟨h1e.trans h2e, strLe_trans h1s h2s⟩⟩

/-- C4 as amended: the list of aggregate rows is sorted by severity rank
descending, then by rule id ascending, for every input list; for a fixed
input the output is deterministic (aggregation is a pure function), but
rows that tie on both rank and rule id keep the first-occurrence order of
their keys, which depends on the order of the input list. -/
theorem aggregate_sorted_by_rank_then_rule (L : List RawViolation) :
    List.Sorted rowLe (build_aggregated_results L) :=
  List.sorted_insertionSort rowLe _

/-- Counterexample to C4's determinism clause: two same-priority,
same-rule violations that differ only in their tag produce the same two
aggregate rows in different orders when the input order is swapped, so
the output order is not independent of the input order. -/
theorem aggregate_order_input_dependent :
    build_aggregated_results [vTagA, vTagB] ≠ build_aggregated_results [vTagB, vTagA] := by
  decide

lemma scanLoop_exhaust (flag : Nat → Bool) (scan : String → List RawViolation) :
    ∀ (rest : List String) (j : Nat) (acc : List RawViolation),
      (∀ i, j ≤ i → i < j + rest.length → flag i = false) →
      scanLoop flag scan rest j acc = (j + rest.length, acc ++ rest.flatMap scan) := by
  intro rest
  induction rest with
  | nil =>
    intro j acc _
    simp [scanLoop]
  | cons u rest2 ih =>
    intro j acc hflag
    rw [scanLoop, if_neg (by simp [hflag j (le_refl j) (by simp)])]
    rw [ih (j + 1) (acc ++ scan u) (fun i h1 h2 => hflag i (by omega) (by simp at h2 ⊢; omega))]
    simp only [List.length_cons, List.flatMap_cons, List.append_assoc]
    rw [Prod.mk.injEq]
    exact ⟨by omega, rfl⟩

lemma scanLoop_break (flag : Nat → Bool) (scan : String → List RawViolation) (k : Nat)
    (hk : flag k = true) :
    ∀ (rest : List String) (j : Nat) (acc : List RawViolation),
      j ≤ k → k - j < rest.length →
      (∀ i, j ≤ i → i < k → flag i = false) →
      scanLoop flag scan rest j acc = (k, acc ++ (rest.take (k - j)).flatMap scan) := by
  intro rest
  induction rest with
  | nil =>
    intro j acc _ hlen _
    simp at hlen
  | cons u rest2 ih =>
    intro j acc hjk hlen hflag
    by_cases hjeq : j = k
    · subst hjeq
      rw [scanLoop, if_pos hk]
      simp
    · have hjlt : j < k := lt_of_le_of_ne hjk hjeq
      rw [scanLoop, if_neg (by simp [hflag j (le_refl j) hjlt])]
      rw [ih (j + 1) (acc ++ scan u) (by omega) (by simp at hlen ⊢; omega)
        (fun i h1 h2 => hflag i (by omega) h2)]
      obtain ⟨m, hm⟩ : ∃ m, k - j = m + 1 := ⟨k - j - 1, by omega⟩
      rw [hm]
      have hm2 : k - (j + 1) = m := by omega
      rw [hm2]
      simp only [List.take_succ_cons, List.flatMap_cons, List.append_assoc]

/-- C6: the loop checks the cooperative cancellation flag before starting
each next URL.  If the flag was false at the first `k` checks and true at
check `k` (cancellation requested once URL `k` completed) while URLs
remain, the loop stops without starting further scans: the accumulated
raw list is exactly the scanner output of the first `k` URLs, and the
final state is `Cancelled`, not `Completed`. -/
theorem cancellation_stops_loop (flag : Nat → Bool)
    (scanner : String → Except String (List RawViolation)) (urls : List String) (k : Nat)
    (hk1 : k < urls.length) (hk2 : ∀ j, j < k → flag j = false) (hk3 : flag k = true) :
    (run_scan_thread flag scanner urls).raw
      = (urls.take k).flatMap (run_axe_scan scanner) ∧
    (run_scan_thread flag scanner urls).state = ScanState.Cancelled ∧
    (run_scan_thread flag scanner urls).state ≠ ScanState.Completed := by
  have hloop := scanLoop_break flag (run_axe_scan scanner) k hk3 urls 0 []
    (Nat.zero_le k) (by simpa using hk1) (fun i h1 h2 => hk2 i h2)
  simp only [Nat.sub_zero] at hloop
  unfold run_scan_thread
  rw [hloop]
  simp [hk3]

/-- Witness for C6: five URLs, flag turning true at the check after URL 2
completes; the raw set holds exactly the records of URLs 1 and 2 and the
state is `Cancelled`. -/
theorem cancellation_stops_loop_witness :
    (run_scan_thread (flagFrom 2) okScanner urls5).raw
      = (urls5.take 2).flatMap (run_axe_scan okScanner) ∧
    (run_scan_thread (flagFrom 2) okScanner urls5).state = ScanState.Cancelled ∧
    (run_scan_thread (flagFrom 2) okScanner urls5).state ≠ ScanState.Completed :=
  cancellation_stops_loop (flagFrom 2) okScanner urls5 2 (by decide)
    (by decide) (by decide)

/-- C10: if the flag is false at every loop-boundary check but true at the
read performed after the loop exits by exhausting the queue (cancellation
requested while the final URL's scan was in flight), every URL is scanned
and all records are present, yet the final state is `Cancelled`, not
`Completed`: the state is derived from the flag's value after the loop,
not from whether the loop was cut short. -/
theorem cancel_after_last_url_reports_cancelled (flag : Nat → Bool)
    (scanner : String → Except String (List RawViolation)) (urls : List String)
    (hall : ∀ i, i < urls.length → flag i = false) (hfin : flag urls.length = true) :
    (run_scan_thread flag scanner urls).raw = urls.flatMap (run_axe_scan scanner) ∧
    (run_scan_thread flag scanner urls).state = ScanState.Cancelled ∧
    (run_scan_thread flag scanner urls).state ≠ ScanState.Completed := by
  have hloop := scanLoop_exhaust flag (run_axe_scan scanner) urls 0 []
    (fun i h1 h2 => hall i (by simpa using h2))
  simp only [Nat.zero_add] at hloop
  unfold run_scan_thread
  rw [hloop]
  simp [hfin]

/-- Witness for C10: five URLs, flag turning true only at the post-loop
read; all five URLs' records are present and the state is `Cancelled`. -/
theorem cancel_after_last_url_reports_cancelled_witness :
    (run_scan_thread (flagFrom 5) okScanner urls5).raw
      = urls5.flatMap (run_axe_scan okScanner) ∧
    (run_scan_thread (flagFrom 5) okScanner urls5).state = ScanState.Cancelled ∧
    (run_scan_thread (flagFrom 5) okScanner urls5).state ≠ ScanState.Completed :=
  cancel_after_last_url_reports_cancelled (flagFrom 5) okScanner urls5
    (by decide) (by decide)

/-- Recognises the synthetic failure record for a given URL: the record's
URL matches and its rule id is the reserved `SCAN_ERROR`. -/
def isSynthFor (u : String) (v : RawViolation) : Bool :=
  v.url == u && v.rule_id == "SCAN_ERROR"

lemma filter_isSynthFor_ne {scanner : String → Except String (List RawViolation)}
    {u w : String} (hok : ∀ u' v, v ∈ run_axe_scan scanner u' → v.url = u') (hne : w ≠ u) :
    (run_axe_scan scanner w).filter (isSynthFor u) = [] := by
  rw [List.filter_eq_nil_iff]
  intro v hv
  have hvu := hok w v hv
  simp only [isSynthFor, Bool.and_eq_true, beq_iff_eq]
  intro hc
  exact hne (by rw [← hvu, hc.1])

lemma filter_isSynthFor_not_mem {scanner : String → Except String (List RawViolation)}
    {u : String} (hok : ∀ u' v, v ∈ run_axe_scan scanner u' → v.url = u') :
    ∀ {urls : List String}, u ∉ urls →
      (urls.flatMap (run_axe_scan scanner)).filter (isSynthFor u) = [] := by
  intro urls
  induction urls with
  | nil => intro _; rfl
  | cons w rest ih =>
    intro hmem
    rw [List.flatMap_cons, List.filter_append,
      filter_isSynthFor_ne hok (fun hc => hmem (by rw [← hc]; exact List.mem_cons_self _ _)),
      List.nil_append]
    exact ih (fun hc => hmem (List.mem_cons_of_mem _ hc))

lemma filter_isSynthFor_once {scanner : String → Except String (List RawViolation)}
    {u e : String} (hok : ∀ u' v, v ∈ run_axe_scan scanner u' → v.url = u')
    (herr : scanner u = Except.error e) :
    ∀ {urls : List String}, urls.count u = 1 →
      (urls.flatMap (run_axe_scan scanner)).filter (isSynthFor u) = [synthRV u e] := by
  intro urls
  induction urls with
  | nil => intro h; cases h
  | cons w rest ih =>
    intro hcount
    rw [List.flatMap_cons, List.filter_append]
    by_cases hwu : w = u
    · subst hwu
      have hrest : w ∉ rest := by
        rw [← List.count_eq_zero]
        have hcc := List.count_cons_self w rest
        omega
      have h1 : (run_axe_scan scanner w).filter (isSynthFor w) = [synthRV w e] := by
        simp [run_axe_scan, herr, isSynthFor, synthRV, List.filter]
      rw [h1, filter_isSynthFor_not_mem hok hrest, List.append_nil]
    · have hrest : rest.count u = 1 := by
        have hcc := List.count_cons u w rest
        simp only [beq_iff_eq] at hcc
        rw [if_neg hwu] at hcc
        omega
      rw [filter_isSynthFor_ne hok hwu, List.nil_append]
      exact ih hrest

/-- C7: if the external scanner fails (throws) for one URL in the queue,
the run still scans every URL — the accumulated raw list is the scanner
output over the whole queue — and exactly one synthetic record is present
for the failing URL; that record carries the reserved `SCAN_ERROR` rule
id, critical priority, and the failure message in its description. -/
theorem scan_failure_contained (urls : List String)
    (scanner : String → Except String (List RawViolation)) (u e : String)
    (hok : ∀ u' v, v ∈ run_axe_scan scanner u' → v.url = u')
    (herr : scanner u = Except.error e) (hcount : urls.count u = 1) :
    (run_scan_thread (fun _ => false) scanner urls).raw
      = urls.flatMap (run_axe_scan scanner) ∧
    run_axe_scan scanner u = [synthRV u e] ∧
    ((run_scan_thread (fun _ => false) scanner urls).raw.filter (isSynthFor u))
      = [synthRV u e] ∧
    (synthRV u e).rule_id = "SCAN_ERROR" ∧ (synthRV u e).priority = "critical" ∧
    (synthRV u e).description = "SCAN ERROR: " ++ e := by
  have hraw : (run_scan_thread (fun _ => false) scanner urls).raw
      = urls.flatMap (run_axe_scan scanner) := by
    have hloop := scanLoop_exhaust (fun _ => false) (run_axe_scan scanner) urls 0 []
      (fun i _ _ => rfl)
    unfold run_scan_thread
    rw [hloop]
    simp
  refine ⟨hraw, ?_, ?_, rfl, rfl, rfl⟩
  · unfold run_axe_scan
    rw [herr]
  · rw [hraw]
    exact filter_isSynthFor_once hok herr hcount

/-- Witness for C7: five URLs with the scanner failing on the third; all
five URLs are scanned and the failing one contributes exactly one
synthetic critical record. -/
theorem scan_failure_contained_witness :
    (run_scan_thread (fun _ => false) failScanner urls5).raw
      = urls5.flatMap (run_axe_scan failScanner) ∧
    run_axe_scan failScanner "http://e.com/u3" = [synthRV "http://e.com/u3" "boom"] ∧
    ((run_scan_thread (fun _ => false) failScanner urls5).raw.filter
      (isSynthFor "http://e.com/u3")) = [synthRV "http://e.com/u3" "boom"] ∧
    (synthRV "http://e.com/u3" "boom").rule_id = "SCAN_ERROR" ∧
    (synthRV "http://e.com/u3" "boom").priority = "critical" ∧
    (synthRV "http://e.com/u3" "boom").description = "SCAN ERROR: " ++ "boom" :=
  scan_failure_contained urls5 failScanner "http://e.com/u3" "boom"
    (by
      intro u' v hv
      by_cases h : u' = "http://e.com/u3"
      · simp only [run_axe_scan, failScanner, if_pos h] at hv
        rw [List.mem_singleton] at hv
        rw [hv]
        rfl
      · simp only [run_axe_scan, failScanner, if_neg h] at hv
        rw [List.mem_singleton] at hv
        rw [hv]
        rfl)
    (by simp [failScanner])
    (by decide)
